import Mathlib

set_option maxHeartbeats 1000000

/-!
Verification of the tsconfig loader
(`src/packages/remix-dev/compiler/utils/tsConfigLoader.ts`).

The embedding models JSON-like documents as association lists of string keys
(`Obj`), mirroring JavaScript object semantics at the level of property
lookup and assignment: lookup returns the first binding of a key, assignment
replaces the first binding in place (keeping its position) or appends a new
binding at the end, exactly as JS property insertion order behaves.
Exceptions (`TypeError` on property access through `undefined`, etc.) are
modelled with `Except Unit`.
-/

/-- JSON-like values as they occur in a parsed tsconfig document.  Arrays in
these documents only ever hold strings (`lib`, `include`, `paths` entries),
so `arr` carries a `List String`.  Index properties that a JS spread of a
string or array would contribute are outside the modelled key space. -/
inductive JVal where
  | b (x : Bool)
  | s (x : String)
  | n (x : Int)
  | null
  | arr (xs : List String)
  | obj (fields : List (String × JVal))

/-- A JavaScript object: ordered list of string-keyed properties. -/
abbrev Obj := List (String × JVal)

/-- Property read `o[k]`: first binding of `k`, or `undefined` (`none`). -/
def jLookup : Obj → String → Option JVal
  | [], _ => none
  | (k', v) :: t, k => if k' = k then some v else jLookup t k

/-- Property assignment `o[k] = v`: overwrite the first binding in place, or
append a fresh binding at the end (JS insertion-order semantics). -/
def objSet : Obj → String → JVal → Obj
  | [], k, v => [(k, v)]
  | (k', v') :: t, k, v => if k' = k then (k, v) :: t else (k', v') :: objSet t k v

/-- JavaScript truthiness of a value: `false`, `0`, `""` and `null` are
falsy; every object or array is truthy. -/
def truthy : JVal → Bool
  | JVal.b x => x
  | JVal.s x => !(x == "")
  | JVal.n x => !(x == 0)
  | JVal.null => false
  | JVal.arr _ => true
  | JVal.obj _ => true

/-- JavaScript strict equality `===` as used by the reconciler: values of
different types are never strictly equal; arrays and objects compare by
reference, and the policy table's values are fresh literals, so they are
never reference-equal to a value read from the config. -/
def jsStrictEq : JVal → JVal → Bool
  | JVal.b x, JVal.b y => x == y
  | JVal.s x, JVal.s y => x == y
  | JVal.n x, JVal.n y => x == y
  | JVal.null, JVal.null => true
  | _, _ => false

/-- `check.value !== optionValue` (negated) where `optionValue` may be
`undefined`: a defined policy value is never strictly equal to `undefined`. -/
def jsStrictEqOpt (v : JVal) : Option JVal → Bool
  | none => false
  | some w => jsStrictEq v w

/-- The read `config.compilerOptions[optionKey]` (tsConfigLoader.ts lines
214 and 225).  When `compilerOptions` is absent the access throws (property
read through `undefined`); when it is `null` it throws as well; a property
read on any other primitive yields `undefined`. -/
def readCompilerOption (config : Obj) (optionKey : String) : Except Unit (Option JVal) :=
  match jLookup config "compilerOptions" with
  | none => Except.error ()
  | some JVal.null => Except.error ()
  | some (JVal.obj co) => Except.ok (jLookup co optionKey)
  | some _ => Except.ok none

/-- The assignment `config.compilerOptions[optionKey] = v` (line 227).  In
strict mode assigning a property of a primitive throws; the reconciler only
reaches this after a successful read, so the object case is the live one. -/
def setCompilerOption (config : Obj) (optionKey : String) (v : JVal) : Except Unit Obj :=
  match jLookup config "compilerOptions" with
  | some (JVal.obj co) =>
    Except.ok (objSet config "compilerOptions" (JVal.obj (objSet co optionKey v)))
  | _ => Except.error ()

/-- A policy table entry: `{ suggested: any }` or `{ value: any; reason: string }`
(`DesiredCompilerOptionsShape`, lines 159-161). -/
inductive Policy where
  | suggested (v : JVal)
  | required (v : JVal) (reason : String)

/-- `getDesiredCompilerOptions` (lines 163-201), in `Object.keys` order
(insertion order of the literal). -/
def getDesiredCompilerOptions : List (String × Policy) :=
  [ ("target", Policy.suggested (JVal.s "ES2019")),
    ("lib", Policy.suggested (JVal.arr ["DOM", "DOM.Iterable", "ES2019"])),
    ("allowJs", Policy.suggested (JVal.b true)),
    ("strict", Policy.suggested (JVal.b true)),
    ("baseUrl", Policy.suggested (JVal.s ".")),
    ("forceConsistentCasingInFileNames", Policy.suggested (JVal.b true)),
    ("esModuleInterop", Policy.required (JVal.b true) "requirement for esbuild"),
    ("isolatedModules", Policy.required (JVal.b true) "requirement for esbuild"),
    ("jsx", Policy.required (JVal.s "react-jsx") "requirement for esbuild"),
    ("moduleResolution", Policy.required (JVal.s "node") "to match esbuild"),
    ("resolveJsonModule", Policy.required (JVal.b true) "to match esbuild"),
    ("noEmit", Policy.required (JVal.b true) "Remix takes care of building everything in `remix build`.") ]

/-- The loop body of `writeConfigurationDefaults` (lines 210-236), iterating
the policy entries in order.  Suggestion and mandatory-change notes are kept
structured as (key, value) resp. (key, value, reason); the surrounding code
only renders them as colored console strings, a presentation concern.

Faithful to the source, the `suggested` branch (lines 212-223) checks the key
at the *top level* of `config`, then reads `config.compilerOptions[optionKey]`,
and on `undefined` assigns the suggested value to the *local variable*
`optionValue` only: the config itself is never updated, a suggestion note is
recorded nonetheless. -/
def reconcileOptions :
    List (String × Policy) → Obj → List (String × JVal) → List (String × JVal × String) →
    Except Unit (Obj × List (String × JVal) × List (String × JVal × String))
  | [], config, sugg, req => Except.ok (config, sugg, req)
  | (optionKey, Policy.suggested v) :: rest, config, sugg, req =>
    if (jLookup config optionKey).isSome then
      reconcileOptions rest config sugg req
    else
      match readCompilerOption config optionKey with
      | Except.error e => Except.error e
      | Except.ok (some _) => reconcileOptions rest config sugg req
      | Except.ok none => reconcileOptions rest config (sugg ++ [(optionKey, v)]) req
  | (optionKey, Policy.required v reason) :: rest, config, sugg, req =>
    match readCompilerOption config optionKey with
    | Except.error e => Except.error e
    | Except.ok cur =>
      if jsStrictEqOpt v cur then
        reconcileOptions rest config sugg req
      else
        match setCompilerOption config optionKey v with
        | Except.error e => Except.error e
        | Except.ok config2 => reconcileOptions rest config2 sugg (req ++ [(optionKey, v, reason)])

/-- The default `include` array (line 239). -/
def includeArr : List String := ["remix.env.d.ts", "**/*.ts", "**/*.tsx"]

/-- Outcome of `writeConfigurationDefaults`: the (mutated) config, the two
note lists, and whether the config file was rewritten on disk
(`fs.writeFileSync` on line 251, reached iff some note was recorded). -/
structure WriteResult where
  config : Obj
  suggestedActions : List (String × JVal)
  requiredActions : List (String × JVal × String)
  wrote : Bool

/-- `writeConfigurationDefaults(config, configPath)` (lines 203-251).  The
`configPath` argument only feeds the console output (via `path.basename`) and
names the file that gets rewritten; the write itself is modelled by the
`wrote` flag, with the rewritten content being the returned config. -/
def writeConfigurationDefaults (config : Obj) : Except Unit WriteResult :=
  match reconcileOptions getDesiredCompilerOptions config [] [] with
  | Except.error e => Except.error e
  | Except.ok (config1, suggestedActions, requiredActions) =>
    let hasInclude := (jLookup config1 "include").isSome
    let config2 := if hasInclude then config1 else objSet config1 "include" (JVal.arr includeArr)
    let suggested2 := if hasInclude then suggestedActions
      else suggestedActions ++ [("include", JVal.arr includeArr)]
    if suggested2.length < 1 ∧ requiredActions.length < 1 then
      Except.ok ⟨config2, suggested2, requiredActions, false⟩
    else
      Except.ok ⟨config2, suggested2, requiredActions, true⟩

/-- JavaScript `hay.indexOf(pat)` on strings, as a scan over character lists:
index of the first occurrence of `pat`, or `-1` when `pat` never occurs. -/
def jsIndexOf (pat : List Char) : List Char → Int
  | [] => if pat.isPrefixOf ([] : List Char) then 0 else -1
  | c :: rest =>
    if pat.isPrefixOf (c :: rest) then 0
    else
      let r := jsIndexOf pat rest
      if r = -1 then -1 else r + 1

/-- Normalization of an `extends` reference (lines 114-119): append `".json"`
exactly when `extendedConfig.indexOf(".json") === -1`. -/
def normalizeRef (ref : String) : String :=
  if jsIndexOf ".json".toList ref.toList = -1 then ref ++ ".json" else ref

/-- Split a character list on `'/'` (segments of a posix path). -/
def splitOnSlash : List Char → List Char → List (List Char)
  | acc, [] => [acc.reverse]
  | acc, c :: rest =>
    if c = '/' then acc.reverse :: splitOnSlash [] rest else splitOnSlash (c :: acc) rest

/-- Posix path normalization over segments, as `path.join` performs it:
empty and `"."` segments vanish, `".."` pops the previous real segment
(kept at the front of a relative path, dropped at the root of an absolute
one).  The first argument is the stack of processed segments, reversed. -/
def normalizeSegments (isAbs : Bool) : List (List Char) → List (List Char) → List (List Char)
  | stack, [] => stack.reverse
  | stack, seg :: rest =>
    if seg = [] ∨ seg = ['.'] then normalizeSegments isAbs stack rest
    else if seg = ['.', '.'] then
      match stack with
      | [] => if isAbs then normalizeSegments isAbs [] rest else normalizeSegments isAbs [seg] rest
      | top :: more =>
        if top = ['.', '.'] then normalizeSegments isAbs (seg :: stack) rest
        else normalizeSegments isAbs more rest
    else normalizeSegments isAbs (seg :: stack) rest

/-- Interleave `'/'` between segments. -/
def joinSegments : List (List Char) → List Char
  | [] => []
  | [seg] => seg
  | seg :: rest => seg ++ '/' :: joinSegments rest

/-- Node's `path.join(a, b)` for posix paths: concatenate the segments of the
two operands and normalize; an empty relative result is `"."`. -/
def pathJoin (a b : String) : String :=
  let isAbs := match a.toList with | '/' :: _ => true | _ => false
  let segs := splitOnSlash [] a.toList ++ splitOnSlash [] b.toList
  let body := joinSegments (normalizeSegments isAbs [] segs)
  if isAbs then String.mk ('/' :: body)
  else if body = [] then "." else String.mk body

/-- Node's `path.dirname` for posix paths: everything before the last `'/'`
(ignoring trailing slashes); `"."` when there is no directory part, `"/"`
when only the root remains. -/
def pathDirname (p : String) : String :=
  let cs := (p.toList.reverse.dropWhile (fun c => c = '/')).reverse
  if cs = [] then (if p.startsWith "/" then "/" else ".")
  else
    let before := (cs.reverse.dropWhile (fun c => c ≠ '/')).reverse
    let beforeTrim := (before.reverse.dropWhile (fun c => c = '/')).reverse
    if before = [] then "."
    else if beforeTrim = [] then "/"
    else String.mk beforeTrim

/-- The object spread `{...o.compilerOptions}` contributes `o.compilerOptions`'s
own properties when it is an object and nothing otherwise (spreading
`undefined`/`null`/a primitive contributes no string-keyed properties). -/
def coSpread (o : Obj) : Obj :=
  match jLookup o "compilerOptions" with
  | some (JVal.obj co) => co
  | _ => []

/-- The JS object spread `{...base, ...desc}` modelled at property level:
every key of `base` keeps its position but takes `desc`'s value when `desc`
also binds it, and `desc`'s bindings follow.  Bindings shadowed by an earlier
position are unreachable through `jLookup`, matching JS object semantics. -/
def shallowMerge : Obj → Obj → Obj
  | [], desc => desc
  | (k, v) :: rest, desc => (k, (jLookup desc k).getD v) :: shallowMerge rest desc

/-- The merge of lines 147-154: `{...base, ...config, compilerOptions:
{...base.compilerOptions, ...config.compilerOptions}}`. -/
def mergedParse (base config : Obj) : Obj :=
  objSet (shallowMerge base config) "compilerOptions"
    (JVal.obj (shallowMerge (coSpread base) (coSpread config)))

/-- The `baseUrl` rebasing step of `parseTsConfig` (lines 139-145): when the
parsed ancestor has a truthy `compilerOptions` with a truthy `baseUrl`, that
`baseUrl` is rewritten to `path.join(path.dirname(extendedConfig), baseUrl)`.
`none` models the `TypeError` thrown by `path.join` on a non-string value. -/
def rebaseBase (base : Obj) (extRef : String) : Option Obj :=
  match jLookup base "compilerOptions" with
  | some (JVal.obj co) =>
    match jLookup co "baseUrl" with
    | none => some base
    | some bu =>
      if truthy bu then
        match bu with
        | JVal.s x =>
          some (objSet base "compilerOptions"
            (JVal.obj (objSet co "baseUrl" (JVal.s (pathJoin (pathDirname extRef) x)))))
        | _ => none
      else some base
  | _ => some base

/-- The `extends` target resolution of lines 120-132: the candidate is the
normalized reference joined onto the config's directory; when the reference
contains both a `'/'` and a `'.'` and the candidate does not exist
(`existsSync p` is `(files p).isSome`), it is reinterpreted under the
config directory's `node_modules` instead. -/
def extendedPath (files : String → Option Obj) (currentDir extRef : String) : String :=
  if jsIndexOf ['/'] extRef.toList != -1 && jsIndexOf ['.'] extRef.toList != -1
      && (files (pathJoin currentDir extRef)).isNone then
    pathJoin (pathJoin currentDir "node_modules") extRef
  else pathJoin currentDir extRef

/-- Lines 134-154 applied to the recursive parse result: a missing ancestor
defaults to `{}` (the `|| {}` of line 135), its `baseUrl` is rebased, and the
two documents are merged. -/
def mergeWithBase (config : Obj) (extRef : String) (parsedBase : Option Obj) :
    Option (Option Obj) :=
  match rebaseBase (parsedBase.getD []) extRef with
  | none => none
  | some base2 => some (some (mergedParse base2 config))

/-- `parseTsConfig` (lines 98-157).  The filesystem is the injectable pair
`existsSync`/`readFileSync` of the source, collapsed into one partial map
`files` from a path to its parsed document (`existsSync p` is
`(files p).isSome`; tolerant-JSON parse failures abort the whole load and
are outside the map).  The source recursion has no cycle guard, so the
embedding carries fuel: the outer `none` means the call does not return a
value (unbounded recursion on a cyclic chain, or a thrown `TypeError`);
`some none` is the source's `undefined` for a missing file. -/
def parseTsConfig : Nat → (String → Option Obj) → String → Option (Option Obj)
  | 0, _, _ => none
  | fuel + 1, files, configFilePath =>
    match files configFilePath with
    | none => some none
    | some config =>
      match jLookup config "extends" with
      | none => some (some config)
      | some extVal =>
        if truthy extVal then
          match extVal with
          | JVal.s extRef0 =>
            let extRef := normalizeRef extRef0
            let currentDir := pathDirname configFilePath
            match parseTsConfig fuel files (extendedPath files currentDir extRef) with
            | none => none
            | some parsedBase => mergeWithBase config extRef parsedBase
          | _ => none
        else some (some config)

/-- `walkForTsConfig` (lines 74-96).  Directories are lists of posix path
components (the root is `[]`), so `path.join(directory, "../")` is
`List.dropLast` and the root's parent equals the root itself, which is the
source's stopping test `directory === parentDirectory`. -/
def walkForTsConfig (existsSync : List String → Bool) (directory : List String) :
    Option (List String) :=
  if existsSync (directory ++ ["tsconfig.json"]) then some (directory ++ ["tsconfig.json"])
  else if existsSync (directory ++ ["jsconfig.json"]) then some (directory ++ ["jsconfig.json"])
  else if h : directory = [] then none
  else walkForTsConfig existsSync directory.dropLast
termination_by directory.length
decreasing_by
  have hp : 0 < directory.length := List.length_pos.mpr h
  simp [List.length_dropLast]
  omega

/-- The chain of directories `walkForTsConfig` visits starting from a
directory: the directory itself, its parent, and so on up to the root. -/
def ancestors (directory : List String) : List (List String) :=
  if h : directory = [] then [[]]
  else directory :: ancestors directory.dropLast
termination_by directory.length
decreasing_by
  have hp : 0 < directory.length := List.length_pos.mpr h
  simp [List.length_dropLast]
  omega

/-- `TsConfigLoaderResult` (lines 19-23). -/
structure TsConfigLoaderResult where
  tsConfigPath : Option String
  baseUrl : Option JVal
  paths : Option JVal

/-- The truthiness chain `config && config.compilerOptions &&
config.compilerOptions[k]` of lines 60-61 (with `config` known defined):
`undefined` when `compilerOptions` is absent, its property `k` when it is an
object, the falsy value itself when it short-circuits, and `undefined` for a
property read on a truthy primitive. -/
def andChain (config : Obj) (k : String) : Option JVal :=
  match jLookup config "compilerOptions" with
  | none => none
  | some (JVal.obj co) => jLookup co k
  | some v => if truthy v then none else some v

/-- `loadSync` (lines 42-63) over its injectable collaborators:
`resolveConfigPath` (the locate step, lines 65-72) and the parse step, which
returns `none` when it does not return a value and `some none` for a missing
file.  `writeConfigurationDefaults` runs on the parsed config before the
result is packaged; passing the parse's `undefined` to it throws (`optionKey
in undefined` is a `TypeError`). -/
def loadSync (resolveConfigPath : String → Option String)
    (parseConfig : String → Option (Option Obj)) (cwd : String) :
    Except Unit TsConfigLoaderResult :=
  match resolveConfigPath cwd with
  | none => Except.ok ⟨none, none, none⟩
  | some configPath =>
    match parseConfig configPath with
    | none => Except.error ()
    | some none => Except.error ()
    | some (some config) =>
      match writeConfigurationDefaults config with
      | Except.error e => Except.error e
      | Except.ok r =>
        Except.ok ⟨some configPath, andChain r.config "baseUrl", andChain r.config "paths"⟩

/-- One policy entry already holds in a config: a suggested key is defined in
`compilerOptions`, a required key reads back strictly equal to its required
value (the precondition of the round-trip property). -/
def entryOK (config : Obj) : String × Policy → Bool
  | (k, Policy.suggested _) =>
    match readCompilerOption config k with
    | Except.ok (some _) => true
    | _ => false
  | (k, Policy.required v _) =>
    match readCompilerOption config k with
    | Except.ok cur => jsStrictEqOpt v cur
    | _ => false

/-- A config satisfies every entry of the policy table. -/
def satisfiesPolicy (config : Obj) : Bool :=
  getDesiredCompilerOptions.all (entryOK config)

/-- The rebased `compilerOptions` of a parsed ancestor whose `baseUrl` was
the string `bu`: `baseUrl` rewritten to `path.join(path.dirname(extRef), bu)`. -/
def rebasedCO (bco : Obj) (extRef : String) (bu : String) : Obj :=
  objSet bco "baseUrl" (JVal.s (pathJoin (pathDirname extRef) bu))

/-- Modelled from the spec: "if the reference has no recognizable file
extension, append `.json`".  A recognizable file extension in the sense of
Node's `path.extname`: the last path segment contains a dot after its first
character (so `"./base.js"` has one and `"./base"` or `".hidden"` has none).
The source has no such notion; this definition only states the spec side for
comparison. -/
def hasRecognizableExtension (ref : String) : Bool :=
  let basename := (ref.toList.reverse.takeWhile (fun c => c ≠ '/')).reverse
  (basename.drop 1).contains '.'

/-- A config whose `compilerOptions` is present but empty. -/
def cfg0 : Obj := [("compilerOptions", JVal.obj [])]

/-- The compiler options after all required policy values are applied to an
initially empty `compilerOptions` object. -/
def requiredCO : Obj :=
  [ ("esModuleInterop", JVal.b true), ("isolatedModules", JVal.b true),
    ("jsx", JVal.s "react-jsx"), ("moduleResolution", JVal.s "node"),
    ("resolveJsonModule", JVal.b true), ("noEmit", JVal.b true) ]

/-- The six suggestion notes recorded for a config none of whose suggested
options is set. -/
def suggestedNotes : List (String × JVal) :=
  [ ("target", JVal.s "ES2019"),
    ("lib", JVal.arr ["DOM", "DOM.Iterable", "ES2019"]),
    ("allowJs", JVal.b true),
    ("strict", JVal.b true),
    ("baseUrl", JVal.s "."),
    ("forceConsistentCasingInFileNames", JVal.b true) ]

/-- The six mandatory-change notes recorded when no required option matches. -/
def requiredNotes : List (String × JVal × String) :=
  [ ("esModuleInterop", JVal.b true, "requirement for esbuild"),
    ("isolatedModules", JVal.b true, "requirement for esbuild"),
    ("jsx", JVal.s "react-jsx", "requirement for esbuild"),
    ("moduleResolution", JVal.s "node", "to match esbuild"),
    ("resolveJsonModule", JVal.b true, "to match esbuild"),
    ("noEmit", JVal.b true, "Remix takes care of building everything in `remix build`.") ]

/-- The config `writeConfigurationDefaults` produces from `cfg0` (and writes
to disk): required options applied, `include` added, but *no* suggested
option set. -/
def reconciled0 : Obj :=
  [("compilerOptions", JVal.obj requiredCO), ("include", JVal.arr includeArr)]

/-- A config whose `esModuleInterop` is explicitly `false`. -/
def cfgE : Obj := [("compilerOptions", JVal.obj [("esModuleInterop", JVal.b false)])]

/-- Compiler options satisfying every policy entry. -/
def compliantCO : Obj :=
  [ ("target", JVal.s "ES2019"),
    ("lib", JVal.arr ["DOM", "DOM.Iterable", "ES2019"]),
    ("allowJs", JVal.b true),
    ("strict", JVal.b true),
    ("baseUrl", JVal.s "."),
    ("forceConsistentCasingInFileNames", JVal.b true) ] ++ requiredCO

/-- A config already satisfying every policy entry, with `include` present. -/
def compliantCfg : Obj :=
  [("compilerOptions", JVal.obj compliantCO), ("include", JVal.arr includeArr)]

/-- Descendant config extending `"./base"` with its own `baseUrl`. -/
def cfgA : Obj :=
  [("extends", JVal.s "./base"), ("compilerOptions", JVal.obj [("baseUrl", JVal.s "./src")])]

/-- Ancestor compiler options carrying a relative `baseUrl`. -/
def bcoA : Obj := [("baseUrl", JVal.s "./lib")]

/-- Ancestor config for the `extends` examples. -/
def baseCfgA : Obj := [("compilerOptions", JVal.obj bcoA)]

/-- A two-file filesystem: a tsconfig extending a sibling `base.json`. -/
def filesA : String → Option Obj := fun q =>
  if q = "/proj/tsconfig.json" then some cfgA
  else if q = "/proj/base.json" then some baseCfgA
  else none

/-- Descendant config whose `extends` reference resolves to no file. -/
def cfgB : Obj :=
  [("extends", JVal.s "./missing"), ("compilerOptions", JVal.obj [("strict", JVal.b true)])]

/-- A one-file filesystem: the `extends` target does not exist. -/
def filesB : String → Option Obj := fun q =>
  if q = "/app/tsconfig.json" then some cfgB else none

/-! ## Basic properties of the object model -/

theorem jLookup_objSet_self (o : Obj) (k : String) (v : JVal) :
    jLookup (objSet o k v) k = some v := by
  induction o with
  | nil => simp [objSet, jLookup]
  | cons hd t ih =>
    obtain ⟨k', v'⟩ := hd
    by_cases h : k' = k
    · simp [objSet, h, jLookup]
    · simp [objSet, h, jLookup, ih]

theorem jLookup_objSet_ne (o : Obj) (k k' : String) (v : JVal) (h : k ≠ k') :
    jLookup (objSet o k v) k' = jLookup o k' := by
  induction o with
  | nil => simp [objSet, jLookup, h]
  | cons hd t ih =>
    obtain ⟨a, b⟩ := hd
    by_cases ha : a = k
    · subst ha
      simp [objSet, jLookup, h]
    · simp [objSet, ha, jLookup, ih]

theorem objSet_of_jLookup_eq (o : Obj) (k : String) (v : JVal)
    (h : jLookup o k = some v) : objSet o k v = o := by
  induction o with
  | nil => simp [jLookup] at h
  | cons hd t ih =>
    obtain ⟨a, b⟩ := hd
    by_cases ha : a = k
    · subst ha
      simp [jLookup] at h
      simp [objSet, h]
    · simp [jLookup, ha] at h
      simp [objSet, ha, ih h]

theorem jLookup_shallowMerge (b d : Obj) (k : String) :
    jLookup (shallowMerge b d) k = (jLookup d k).or (jLookup b k) := by
  induction b with
  | nil =>
    cases hd : jLookup d k <;> simp [shallowMerge, jLookup, Option.or, hd]
  | cons hd t ih =>
    obtain ⟨bk, bv⟩ := hd
    by_cases h : bk = k
    · subst h
      simp [shallowMerge, jLookup]
      cases hd : jLookup d bk <;> simp [Option.or, hd]
    · simp [shallowMerge, jLookup, h, ih]

theorem readCompilerOption_objSet_ne (c : Obj) (k : String) (v : JVal) (optionKey : String)
    (h : k ≠ "compilerOptions") :
    readCompilerOption (objSet c k v) optionKey = readCompilerOption c optionKey := by
  unfold readCompilerOption
  rw [jLookup_objSet_ne c k "compilerOptions" v h]

theorem setCompilerOption_spec (c c2 : Obj) (k : String) (v : JVal)
    (h : setCompilerOption c k v = Except.ok c2) :
    readCompilerOption c2 k = Except.ok (some v)
    ∧ (∀ k', k' ≠ k → readCompilerOption c2 k' = readCompilerOption c k')
    ∧ (∀ t, t ≠ "compilerOptions" → jLookup c2 t = jLookup c t) := by
  unfold setCompilerOption at h
  split at h
  case _ co heq =>
    injection h with h2
    subst h2
    refine ⟨?_, ?_, ?_⟩
    · unfold readCompilerOption
      rw [jLookup_objSet_self]
      simp [jLookup_objSet_self]
    · intro k' hk'
      unfold readCompilerOption
      rw [jLookup_objSet_self, heq]
      simp [jLookup_objSet_ne co k k' v (fun he => hk' he.symm)]
    · intro t ht
      exact jLookup_objSet_ne c "compilerOptions" t _ (fun he => ht he.symm)
  case _ => exact absurd h (by simp)

/-! ## Properties of the reconciliation loop -/

theorem reconcileOptions_append (l : List (String × Policy)) (c : Obj)
    (s : List (String × JVal)) (r : List (String × JVal × String))
    (c' : Obj) (s' : List (String × JVal)) (r' : List (String × JVal × String))
    (h : reconcileOptions l c s r = Except.ok (c', s', r')) :
    (∃ ds, s' = s ++ ds) ∧ (∃ dr, r' = r ++ dr) := by
  induction l generalizing c s r with
  | nil =>
    simp only [reconcileOptions, Except.ok.injEq, Prod.mk.injEq] at h
    exact ⟨⟨[], by simp [h.2.1]⟩, ⟨[], by simp [h.2.2]⟩⟩
  | cons hd t ih =>
    obtain ⟨key, p⟩ := hd
    cases p with
    | suggested v =>
      simp only [reconcileOptions] at h
      split at h
      · exact ih c s r h
      · split at h
        · exact absurd h (by simp)
        · exact ih c s r h
        · obtain ⟨⟨ds, hds⟩, hdr⟩ := ih c (s ++ [(key, v)]) r h
          exact ⟨⟨(key, v) :: ds, by simp [hds]⟩, hdr⟩
    | required v reason =>
      simp only [reconcileOptions] at h
      split at h
      · exact absurd h (by simp)
      · split at h
        · exact ih c s r h
        · split at h
          · exact absurd h (by simp)
          · obtain ⟨hds, ⟨dr, hdr⟩⟩ := ih _ s (r ++ [(key, v, reason)]) h
            exact ⟨hds, ⟨(key, v, reason) :: dr, by simp [hdr]⟩⟩

theorem reconcileOptions_frame (l : List (String × Policy)) (c : Obj)
    (s : List (String × JVal)) (r : List (String × JVal × String))
    (c' : Obj) (s' : List (String × JVal)) (r' : List (String × JVal × String))
    (k : String)
    (h : reconcileOptions l c s r = Except.ok (c', s', r'))
    (hk : k ∉ l.map Prod.fst) :
    readCompilerOption c' k = readCompilerOption c k := by
  induction l generalizing c s r with
  | nil =>
    simp only [reconcileOptions, Except.ok.injEq, Prod.mk.injEq] at h
    rw [h.1]
  | cons hd t ih =>
    obtain ⟨key, p⟩ := hd
    simp only [List.map_cons, List.mem_cons, not_or] at hk
    obtain ⟨hk1, hk2⟩ := hk
    cases p with
    | suggested v =>
      simp only [reconcileOptions] at h
      split at h
      · exact ih c s r h hk2
      · split at h
        · exact absurd h (by simp)
        · exact ih c s r h hk2
        · exact ih c (s ++ [(key, v)]) r h hk2
    | required v reason =>
      simp only [reconcileOptions] at h
      split at h
      · exact absurd h (by simp)
      · split at h
        · exact ih c s r h hk2
        · split at h
          · exact absurd h (by simp)
          case _ c2 heq3 =>
            have hspec := setCompilerOption_spec c c2 key v heq3
            have hstep := hspec.2.1 k (fun he => hk1 he)
            rw [ih c2 s (r ++ [(key, v, reason)]) h hk2, hstep]

theorem reconcileOptions_required (l : List (String × Policy)) (key : String) (v : JVal)
    (reason : String) (w : Option JVal) (c : Obj)
    (s : List (String × JVal)) (r : List (String × JVal × String))
    (c' : Obj) (s' : List (String × JVal)) (r' : List (String × JVal × String))
    (hnd : (l.map Prod.fst).Nodup)
    (hmem : (key, Policy.required v reason) ∈ l)
    (h : reconcileOptions l c s r = Except.ok (c', s', r'))
    (hread : readCompilerOption c key = Except.ok w)
    (hne : jsStrictEqOpt v w = false) :
    (key, v, reason) ∈ r' ∧ readCompilerOption c' key = Except.ok (some v) := by
  induction l generalizing c s r with
  | nil => cases hmem
  | cons hd t ih =>
    obtain ⟨hk, hp⟩ := hd
    simp only [List.map_cons, List.nodup_cons] at hnd
    obtain ⟨hnotin, hndt⟩ := hnd
    rcases List.mem_cons.mp hmem with heq | hmemt
    · injection heq with heq1 heq2
      subst heq1
      subst heq2
      simp only [reconcileOptions] at h
      split at h
      case _ e heq2 => rw [hread] at heq2; cases heq2
      case _ cur heq2 =>
        rw [hread] at heq2
        injection heq2 with hcur
        subst hcur
        rw [hne] at h
        simp only [Bool.false_eq_true, if_false] at h
        split at h
        · exact absurd h (by simp)
        case _ c2 heq3 =>
          have hspec := setCompilerOption_spec c c2 key v heq3
          have hfr := reconcileOptions_frame t c2 s (r ++ [(key, v, reason)]) c' s' r' key h
            hnotin
          refine ⟨?_, ?_⟩
          · obtain ⟨_, ⟨dr, hdr⟩⟩ := reconcileOptions_append t c2 _ _ _ _ _ h
            rw [hdr]
            simp
          · rw [hfr]
            exact hspec.1
    · have hkmem : key ∈ t.map Prod.fst := List.mem_map_of_mem Prod.fst hmemt
      have hkne : hk ≠ key := fun he => hnotin (he ▸ hkmem)
      cases hp with
      | suggested sv =>
        simp only [reconcileOptions] at h
        split at h
        · exact ih c s r hndt hmemt h hread
        · split at h
          · exact absurd h (by simp)
          · exact ih c s r hndt hmemt h hread
          · exact ih c (s ++ [(hk, sv)]) r hndt hmemt h hread
      | required rv rr =>
        simp only [reconcileOptions] at h
        split at h
        · exact absurd h (by simp)
        · split at h
          · exact ih c s r hndt hmemt h hread
          · split at h
            · exact absurd h (by simp)
            case _ c2 heq3 =>
              have hspec := setCompilerOption_spec c c2 hk rv heq3
              have hread2 : readCompilerOption c2 key = Except.ok w := by
                rw [hspec.2.1 key (fun he => hkne he.symm), hread]
              exact ih c2 s (r ++ [(hk, rv, rr)]) hndt hmemt h hread2

theorem reconcileOptions_noop (l : List (String × Policy)) (c : Obj)
    (s : List (String × JVal)) (r : List (String × JVal × String))
    (hok : l.all (entryOK c) = true) :
    reconcileOptions l c s r = Except.ok (c, s, r) := by
  induction l generalizing s r with
  | nil => rfl
  | cons hd t ih =>
    obtain ⟨key, p⟩ := hd
    simp only [List.all_cons, Bool.and_eq_true] at hok
    obtain ⟨h1, h2⟩ := hok
    cases p with
    | suggested v =>
      simp only [entryOK] at h1
      simp only [reconcileOptions]
      split
      · exact ih s r h2
      · cases hr : readCompilerOption c key with
        | error e => rw [hr] at h1; simp at h1
        | ok cur =>
          cases cur with
          | none => rw [hr] at h1; simp at h1
          | some u => exact ih s r h2
    | required v reason =>
      simp only [entryOK] at h1
      simp only [reconcileOptions]
      cases hr : readCompilerOption c key with
      | error e => rw [hr] at h1; simp at h1
      | ok cur =>
        rw [hr] at h1
        simp at h1
        simp only [h1, if_true]
        exact ih s r h2

theorem reconcileOptions_missing_co (l : List (String × Policy)) (c : Obj)
    (s : List (String × JVal)) (r : List (String × JVal × String))
    (hco : jLookup c "compilerOptions" = none)
    (hreq : ∃ key v reason, (key, Policy.required v reason) ∈ l) :
    reconcileOptions l c s r = Except.error () := by
  induction l generalizing s r with
  | nil => obtain ⟨k2, v2, r2, hm⟩ := hreq; cases hm
  | cons hd t ih =>
    obtain ⟨key, p⟩ := hd
    have hrd : readCompilerOption c key = Except.error () := by
      unfold readCompilerOption; rw [hco]
    cases p with
    | suggested v =>
      simp only [reconcileOptions]
      split
      · apply ih
        obtain ⟨k2, v2, r2, hm⟩ := hreq
        rcases List.mem_cons.mp hm with he | hm2
        · injection he with he1 he2; injection he2
        · exact ⟨k2, v2, r2, hm2⟩
      · rw [hrd]
    | required v reason =>
      simp only [reconcileOptions]
      rw [hrd]

/-! ## Claims about the DefaultsWriter -/

/-- C1: the claim says a suggested option absent from the top level whose
`compilerOptions` value is undefined is *set* to the suggested value, so that
a config missing `strict` ends with `compilerOptions.strict === true`.  The
code records the suggestion note (and rewrites the file), but only assigns
the suggested value to a local variable, never to the config: starting from
`{"compilerOptions": {}}`, after reconciliation `strict` is still undefined
even though the note "strict was set to true" was recorded and the file was
written. -/
theorem c1_suggested_defaults_not_applied :
    writeConfigurationDefaults cfg0 =
      Except.ok ⟨reconciled0, suggestedNotes ++ [("include", JVal.arr includeArr)],
        requiredNotes, true⟩
    ∧ readCompilerOption reconciled0 "strict" = Except.ok none :=
  ⟨rfl, rfl⟩

/-- C2: the claim says reconciliation is idempotent (second call records zero
changes and does not write).  Running `writeConfigurationDefaults` on its own
output `reconciled0` records the six suggestion notes again and writes the
file again (`wrote = true`), because the suggested values were never stored:
only the required options and `include` are stable. -/
theorem c2_reconcile_not_idempotent :
    writeConfigurationDefaults reconciled0 =
      Except.ok ⟨reconciled0, suggestedNotes, [], true⟩
    ∧ suggestedNotes ≠ [] :=
  ⟨rfl, by simp [suggestedNotes]⟩

/-- C3: for every config and required policy entry, when the current value of
`config.compilerOptions[key]` is not strictly equal to the required value,
reconciliation overwrites it with the required value and records a
mandatory-change note carrying the documented reason. -/
theorem c3_required_overwrite (config : Obj) (key : String) (v : JVal) (reason : String)
    (res : WriteResult) (w : Option JVal)
    (hmem : (key, Policy.required v reason) ∈ getDesiredCompilerOptions)
    (hw : writeConfigurationDefaults config = Except.ok res)
    (hread : readCompilerOption config key = Except.ok w)
    (hne : jsStrictEqOpt v w = false) :
    (key, v, reason) ∈ res.requiredActions
    ∧ readCompilerOption res.config key = Except.ok (some v) := by
  unfold writeConfigurationDefaults at hw
  split at hw
  · exact absurd hw (by simp)
  case _ c1 s1 r1 heq =>
    have hnd : (getDesiredCompilerOptions.map Prod.fst).Nodup := by decide
    have hmain := reconcileOptions_required getDesiredCompilerOptions key v reason w config
      [] [] c1 s1 r1 hnd hmem heq hread hne
    by_cases hinc : (jLookup c1 "include").isSome
    · simp only [hinc, if_true] at hw
      split at hw
      all_goals
        injection hw with hw2
        subst hw2
        exact ⟨hmain.1, hmain.2⟩
    · simp only [hinc, Bool.false_eq_true, if_false] at hw
      split at hw
      all_goals
        injection hw with hw2
        subst hw2
        refine ⟨hmain.1, ?_⟩
        rw [readCompilerOption_objSet_ne c1 "include" (JVal.arr includeArr) key (by decide)]
        exact hmain.2

/-- Witness for C3: `esModuleInterop: false` is forced to `true` with the
documented reason recorded. -/
theorem c3_required_overwrite_witness :
    ("esModuleInterop", JVal.b true, "requirement for esbuild") ∈ requiredNotes
    ∧ readCompilerOption reconciled0 "esModuleInterop" = Except.ok (some (JVal.b true)) :=
  c3_required_overwrite cfgE "esModuleInterop" (JVal.b true) "requirement for esbuild"
    ⟨reconciled0, suggestedNotes ++ [("include", JVal.arr includeArr)], requiredNotes, true⟩
    (some (JVal.b false))
    (by simp [getDesiredCompilerOptions]) rfl rfl rfl

/-- C6: a config that already satisfies every policy entry and carries an
`include` key triggers no note and no file write, and is left unchanged. -/
theorem c6_compliant_no_write (config : Obj)
    (hpol : satisfiesPolicy config = true)
    (hinc : (jLookup config "include").isSome = true) :
    writeConfigurationDefaults config = Except.ok ⟨config, [], [], false⟩ := by
  unfold writeConfigurationDefaults
  rw [reconcileOptions_noop getDesiredCompilerOptions config [] [] hpol]
  simp [hinc]

/-- Witness for C6 at a concrete fully-compliant config. -/
theorem c6_compliant_no_write_witness :
    writeConfigurationDefaults compliantCfg = Except.ok ⟨compliantCfg, [], [], false⟩ :=
  c6_compliant_no_write compliantCfg rfl rfl

/-- C10: a config with no `compilerOptions` property makes
`writeConfigurationDefaults` throw (the read
`config.compilerOptions[optionKey]` is a property access through
`undefined`), so no defaults are applied. -/
theorem c10_missing_compiler_options_throws (config : Obj)
    (hco : jLookup config "compilerOptions" = none) :
    writeConfigurationDefaults config = Except.error () := by
  unfold writeConfigurationDefaults
  rw [reconcileOptions_missing_co getDesiredCompilerOptions config [] [] hco
    ⟨"esModuleInterop", JVal.b true, "requirement for esbuild",
      by simp [getDesiredCompilerOptions]⟩]

/-- Witness for C10 at the empty config. -/
theorem c10_missing_compiler_options_throws_witness :
    writeConfigurationDefaults ([] : Obj) = Except.error () :=
  c10_missing_compiler_options_throws [] rfl

/-! ## Claims about the loader entry point -/

/-- C7: whenever `loadSync` returns a result whose `tsConfigPath` is absent,
its `baseUrl` and `paths` are absent as well. -/
theorem c7_loader_result_invariant (resolveConfigPath : String → Option String)
    (parseConfig : String → Option (Option Obj)) (cwd : String)
    (res : TsConfigLoaderResult)
    (h : loadSync resolveConfigPath parseConfig cwd = Except.ok res)
    (habs : res.tsConfigPath = none) :
    res.baseUrl = none ∧ res.paths = none := by
  unfold loadSync at h
  split at h
  · injection h with h2
    subst h2
    exact ⟨rfl, rfl⟩
  case _ configPath heq =>
    split at h
    · exact absurd h (by simp)
    · exact absurd h (by simp)
    · split at h
      · exact absurd h (by simp)
      case _ r heq2 =>
        injection h with h2
        subst h2
        simp at habs

/-- Witness for C7 when nothing is located. -/
theorem c7_loader_result_invariant_witness :
    (TsConfigLoaderResult.mk none none none).baseUrl = none
    ∧ (TsConfigLoaderResult.mk none none none).paths = none :=
  c7_loader_result_invariant (fun _ => none) (fun _ => none) "" ⟨none, none, none⟩ rfl rfl

/-! ## Claims about the locator -/

theorem self_mem_ancestors (dir : List String) : dir ∈ ancestors dir := by
  unfold ancestors
  split
  · simp_all
  · exact List.mem_cons_self _ _

theorem mem_ancestors_dropLast (dir a : List String) (hne : dir ≠ [])
    (ha : a ∈ ancestors dir.dropLast) : a ∈ ancestors dir := by
  unfold ancestors
  rw [dif_neg hne]
  exact List.mem_cons_of_mem _ ha

theorem walkForTsConfig_none_of_le (existsSync : List String → Bool) :
    ∀ n (dir : List String), dir.length ≤ n →
    (∀ a ∈ ancestors dir, existsSync (a ++ ["tsconfig.json"]) = false
      ∧ existsSync (a ++ ["jsconfig.json"]) = false) →
    walkForTsConfig existsSync dir = none := by
  intro n
  induction n with
  | zero =>
    intro dir hlen hfa
    have hdir : dir = [] := List.eq_nil_of_length_eq_zero (Nat.le_zero.mp hlen)
    subst hdir
    have h0 := hfa [] (self_mem_ancestors [])
    simp only [List.nil_append] at h0
    unfold walkForTsConfig
    simp [h0.1, h0.2]
  | succ n ih =>
    intro dir hlen hfa
    have hd := hfa dir (self_mem_ancestors dir)
    by_cases hdir : dir = []
    · subst hdir
      simp only [List.nil_append] at hd
      unfold walkForTsConfig
      simp [hd.1, hd.2]
    · unfold walkForTsConfig
      simp [hd.1, hd.2, hdir]
      exact ih dir.dropLast (by simp [List.length_dropLast]; omega)
        (fun a ha => hfa a (mem_ancestors_dropLast dir a hdir ha))

/-- C8: the locator walk prefers `tsconfig.json`, falls back to a co-located
`jsconfig.json`, otherwise recurses into the parent directory, and returns
absent exactly on the chains where no ancestor carries either file. -/
theorem c8_locate_walk (existsSync : List String → Bool) (dir : List String) :
    ((∀ a ∈ ancestors dir, existsSync (a ++ ["tsconfig.json"]) = false
        ∧ existsSync (a ++ ["jsconfig.json"]) = false) →
      walkForTsConfig existsSync dir = none)
    ∧ (existsSync (dir ++ ["tsconfig.json"]) = true →
      walkForTsConfig existsSync dir = some (dir ++ ["tsconfig.json"]))
    ∧ (existsSync (dir ++ ["tsconfig.json"]) = false →
      existsSync (dir ++ ["jsconfig.json"]) = true →
      walkForTsConfig existsSync dir = some (dir ++ ["jsconfig.json"]))
    ∧ (existsSync (dir ++ ["tsconfig.json"]) = false →
      existsSync (dir ++ ["jsconfig.json"]) = false → dir ≠ [] →
      walkForTsConfig existsSync dir = walkForTsConfig existsSync dir.dropLast) := by
  refine ⟨fun hfa => walkForTsConfig_none_of_le existsSync dir.length dir le_rfl hfa,
    ?_, ?_, ?_⟩
  · intro h1
    unfold walkForTsConfig
    simp [h1]
  · intro h1 h2
    unfold walkForTsConfig
    simp [h1, h2]
  · intro h1 h2 h3
    conv_lhs => rw [walkForTsConfig]
    simp [h1, h2, h3]

/-- Witness for C8 on a filesystem with no config anywhere. -/
theorem c8_locate_walk_witness :
    walkForTsConfig (fun _ => false) ["home", "proj"] = none :=
  (c8_locate_walk (fun _ => false) ["home", "proj"]).1 (fun a _ => ⟨rfl, rfl⟩)

/-! ## Claims about extends-reference normalization -/

theorem jsIndexOf_nonneg_or (pat : List Char) (hay : List Char) :
    jsIndexOf pat hay = -1 ∨ 0 ≤ jsIndexOf pat hay := by
  induction hay with
  | nil =>
    unfold jsIndexOf
    split
    · exact Or.inr le_rfl
    · exact Or.inl rfl
  | cons c t ih =>
    unfold jsIndexOf
    split
    · exact Or.inr le_rfl
    · by_cases h : jsIndexOf pat t = -1
      · simp [h]
      · rcases ih with h2 | h2
        · exact absurd h2 h
        · right
          simp only [h, if_false]
          omega

theorem jsIndexOf_eq_neg_one_iff (pat hay : List Char) :
    jsIndexOf pat hay = -1 ↔ ¬ (pat <:+: hay) := by
  induction hay with
  | nil =>
    unfold jsIndexOf
    split
    case _ hp =>
      have hi : pat <:+: [] := (List.isPrefixOf_iff_prefix.mp hp).isInfix
      simp only [hi, not_true, iff_false]
      omega
    case _ hp =>
      have hne : pat ≠ [] := by
        intro he
        subst he
        exact hp (by simp [List.isPrefixOf])
      simp [List.infix_nil, hne]
  | cons c t ih =>
    unfold jsIndexOf
    split
    case _ hp =>
      have hi : pat <:+: c :: t := (List.isPrefixOf_iff_prefix.mp hp).isInfix
      simp only [hi, not_true, iff_false]
      omega
    case _ hp =>
      have hpre : ¬ pat <+: c :: t := fun h => hp (List.isPrefixOf_iff_prefix.mpr h)
      by_cases hr : jsIndexOf pat t = -1
      · have hnt : ¬ pat <:+: t := ih.mp hr
        simp [hr, List.infix_cons_iff, hpre, hnt]
      · have ht : pat <:+: t := by
          by_contra hn
          exact hr (ih.mpr hn)
        rcases jsIndexOf_nonneg_or pat t with h2 | h2
        · exact absurd h2 hr
        · simp only [hr, if_false, List.infix_cons_iff, ht, or_true, not_true, iff_false]
          omega

/-- C9 (amended): the parser appends `".json"` to an `extends` reference
exactly when the reference does not contain the substring `".json"`; a
reference containing that substring anywhere is left unmodified.  (The
source's test is `extendedConfig.indexOf(".json") === -1`, not a check for a
file extension.) -/
theorem c9_json_substring_rule (ref : String) :
    (¬ (".json".toList <:+: ref.toList) → normalizeRef ref = ref ++ ".json")
    ∧ ((".json".toList <:+: ref.toList) → normalizeRef ref = ref) := by
  constructor
  · intro hni
    unfold normalizeRef
    rw [if_pos ((jsIndexOf_eq_neg_one_iff _ _).mpr hni)]
  · intro hi
    unfold normalizeRef
    rw [if_neg (fun he => (jsIndexOf_eq_neg_one_iff _ _).mp he hi)]

/-- Witness for the amended C9 on a reference with no extension. -/
theorem c9_json_substring_rule_witness :
    normalizeRef "./base" = "./base" ++ ".json" :=
  (c9_json_substring_rule "./base").1 (by decide)

/-- C9 counterexample: `"./base.js"` carries the recognizable file extension
`".js"`, yet the parser still appends `".json"` (the code tests for the
substring `".json"`, not for the presence of a file extension), contradicting
the claim that references already carrying a file extension are left
unmodified. -/
theorem c9_extension_claim_false :
    hasRecognizableExtension "./base.js" = true
    ∧ normalizeRef "./base.js" = "./base.js.json"
    ∧ "./base.js.json" ≠ "./base.js" :=
  ⟨rfl, rfl, by decide⟩

/-! ## Claims about extends resolution and merging -/

/-- C5: when an `extends` reference resolves to no file (neither directly nor
under `node_modules`), the ancestor is treated as `{}`: parsing succeeds, all
of the descendant's top-level keys read back unchanged, and a descendant with
an object `compilerOptions` comes back literally unchanged. -/
theorem c5_missing_ancestor (n : Nat) (files : String → Option Obj) (p r : String)
    (config : Obj)
    (hcfg : files p = some config)
    (hext : jLookup config "extends" = some (JVal.s r))
    (hr : r ≠ "")
    (hmiss1 : files (pathJoin (pathDirname p) (normalizeRef r)) = none)
    (hmiss2 : files (pathJoin (pathJoin (pathDirname p) "node_modules") (normalizeRef r)) = none) :
    parseTsConfig (n + 2) files p
      = some (some (objSet config "compilerOptions" (JVal.obj (coSpread config))))
    ∧ (∀ k, k ≠ "compilerOptions" →
        jLookup (objSet config "compilerOptions" (JVal.obj (coSpread config))) k
          = jLookup config k)
    ∧ (∀ co, jLookup config "compilerOptions" = some (JVal.obj co) →
        objSet config "compilerOptions" (JVal.obj (coSpread config)) = config) := by
  refine ⟨?_, ?_, ?_⟩
  · have htr : truthy (JVal.s r) = true := by simp [truthy, hr]
    have hpath : files (extendedPath files (pathDirname p) (normalizeRef r)) = none := by
      unfold extendedPath
      split
      · exact hmiss2
      · exact hmiss1
    have hrec : parseTsConfig (n + 1) files (extendedPath files (pathDirname p) (normalizeRef r))
        = some none := by
      simp [parseTsConfig, hpath]
    rw [show n + 2 = (n + 1) + 1 from rfl, parseTsConfig]
    rw [hcfg]
    simp only [hext, htr, if_true]
    rw [hrec]
    rfl
  · intro k hk
    exact jLookup_objSet_ne config "compilerOptions" k _ (fun he => hk he.symm)
  · intro co hco
    have hcs : coSpread config = co := by simp [coSpread, hco]
    rw [hcs]
    exact objSet_of_jLookup_eq config "compilerOptions" (JVal.obj co) hco

/-- Witness for C5: with the `extends` target missing, the parsed result is
literally the descendant config. -/
theorem c5_missing_ancestor_witness :
    parseTsConfig 2 filesB "/app/tsconfig.json" = some (some cfgB) := by
  have h := c5_missing_ancestor 0 filesB "/app/tsconfig.json" "./missing" cfgB rfl rfl
    (by decide) rfl rfl
  rw [h.1, h.2.2 [("strict", JVal.b true)] rfl]

/-- C4: resolving a one-step `extends` chain merges the rebased ancestor
under the descendant: the top level is the ancestor shallow-merged under the
descendant, `compilerOptions` is its own nested shallow merge in which the
descendant's `baseUrl` wins, and when the descendant omits `baseUrl` the
resolved value is the ancestor's `baseUrl` joined onto the directory
component of the (normalized) `extends` reference. -/
theorem c4_extends_merge (n : Nat) (files : String → Option Obj) (p r bu : String)
    (config baseCfg bco : Obj)
    (hcfg : files p = some config)
    (hext : jLookup config "extends" = some (JVal.s r))
    (hr : r ≠ "")
    (hbase : files (pathJoin (pathDirname p) (normalizeRef r)) = some baseCfg)
    (hbext : jLookup baseCfg "extends" = none)
    (hbco : jLookup baseCfg "compilerOptions" = some (JVal.obj bco))
    (hbu : jLookup bco "baseUrl" = some (JVal.s bu))
    (hbune : bu ≠ "") :
    parseTsConfig (n + 2) files p
      = some (some (mergedParse
          (objSet baseCfg "compilerOptions" (JVal.obj (rebasedCO bco (normalizeRef r) bu)))
          config))
    ∧ jLookup (mergedParse
          (objSet baseCfg "compilerOptions" (JVal.obj (rebasedCO bco (normalizeRef r) bu)))
          config) "compilerOptions"
        = some (JVal.obj (shallowMerge (rebasedCO bco (normalizeRef r) bu) (coSpread config)))
    ∧ (∀ k, k ≠ "compilerOptions" →
        jLookup (mergedParse
            (objSet baseCfg "compilerOptions" (JVal.obj (rebasedCO bco (normalizeRef r) bu)))
            config) k
          = (jLookup config k).or (jLookup baseCfg k))
    ∧ (∀ dv, jLookup (coSpread config) "baseUrl" = some dv →
        jLookup (shallowMerge (rebasedCO bco (normalizeRef r) bu) (coSpread config)) "baseUrl"
          = some dv)
    ∧ (jLookup (coSpread config) "baseUrl" = none →
        jLookup (shallowMerge (rebasedCO bco (normalizeRef r) bu) (coSpread config)) "baseUrl"
          = some (JVal.s (pathJoin (pathDirname (normalizeRef r)) bu))) := by
  have hreb : rebaseBase baseCfg (normalizeRef r)
      = some (objSet baseCfg "compilerOptions"
          (JVal.obj (rebasedCO bco (normalizeRef r) bu))) := by
    unfold rebaseBase
    simp only [hbco, hbu]
    simp [truthy, hbune, rebasedCO]
  refine ⟨?_, ?_, ?_, ?_, ?_⟩
  · have htr : truthy (JVal.s r) = true := by simp [truthy, hr]
    have hpath : extendedPath files (pathDirname p) (normalizeRef r)
        = pathJoin (pathDirname p) (normalizeRef r) := by
      unfold extendedPath
      rw [hbase]
      simp
    have hrec : parseTsConfig (n + 1) files (extendedPath files (pathDirname p) (normalizeRef r))
        = some (some baseCfg) := by
      rw [hpath]
      simp [parseTsConfig, hbase, hbext]
    rw [show n + 2 = (n + 1) + 1 from rfl, parseTsConfig]
    rw [hcfg]
    simp only [hext, htr, if_true]
    rw [hrec]
    show mergeWithBase config (normalizeRef r) (some baseCfg) = _
    unfold mergeWithBase
    rw [Option.getD_some, hreb]
  · unfold mergedParse
    rw [jLookup_objSet_self]
    have hcs : coSpread (objSet baseCfg "compilerOptions"
        (JVal.obj (rebasedCO bco (normalizeRef r) bu))) = rebasedCO bco (normalizeRef r) bu := by
      unfold coSpread
      rw [jLookup_objSet_self]
    rw [hcs]
  · intro k hk
    unfold mergedParse
    rw [jLookup_objSet_ne _ "compilerOptions" k _ (fun he => hk he.symm)]
    rw [jLookup_shallowMerge]
    rw [jLookup_objSet_ne _ "compilerOptions" k _ (fun he => hk he.symm)]
  · intro dv hdv
    rw [jLookup_shallowMerge, hdv]
    rfl
  · intro hnone
    rw [jLookup_shallowMerge, hnone]
    show Option.or none _ = _
    rw [Option.none_or]
    unfold rebasedCO
    rw [jLookup_objSet_self]

/-- Witness for C4: the descendant's own `baseUrl` (`"./src"`) wins over the
ancestor's rebased one. -/
theorem c4_extends_merge_witness :
    parseTsConfig 2 filesA "/proj/tsconfig.json"
      = some (some (mergedParse
          (objSet baseCfgA "compilerOptions"
            (JVal.obj (rebasedCO bcoA (normalizeRef "./base") "./lib")))
          cfgA))
    ∧ jLookup (shallowMerge (rebasedCO bcoA (normalizeRef "./base") "./lib") (coSpread cfgA))
        "baseUrl" = some (JVal.s "./src") :=
  ⟨(c4_extends_merge 0 filesA "/proj/tsconfig.json" "./base" "./lib" cfgA baseCfgA bcoA
      rfl rfl (by decide) rfl rfl rfl rfl (by decide)).1,
   (c4_extends_merge 0 filesA "/proj/tsconfig.json" "./base" "./lib" cfgA baseCfgA bcoA
      rfl rfl (by decide) rfl rfl rfl rfl (by decide)).2.2.2.1 (JVal.s "./src") rfl⟩
